import Mathlib

/-!
Shallow embedding of the variable-size-entry stack library
(src/include/stack.h, src/src/stack.c) and proofs about it.

Model conventions:
- Machine bytes are `Nat` values; `size_t` values are naturals taken modulo
  2 ^ 64 exactly where the C code can overflow; `unsigned int` modulo 2 ^ 32.
- A `stack_t *` handle is an `Option stack_t`: `none` is the NULL pointer.
  The self-pointer sentinel (`stack_p == stack_p->self`) is modelled by the
  Boolean field `self_ok`.
- The 1024-byte element buffer is a `List Nat` of length 1024.  Reads and
  writes through pointers into the buffer are `readBytes` / `writeBytes`,
  which return `none` when the access would be out of bounds: an operation
  whose C execution would touch memory outside the buffer (undefined
  behavior) is modelled as `none`.
- Each operation that in C mutates the stack through the handle returns the
  post-state of the handle next to its return code.
-/

/-- Width of a size field (sizeof(size_t) on the 64-bit target). -/
def SIZEOF_SIZE_T : Nat := 8

/-- One more than the largest size_t value. -/
def SIZE_T_MOD : Nat := 18446744073709551616

/-- One more than the largest unsigned int value. -/
def UINT_MOD : Nat := 4294967296

/-- STACK_MAX_REFCOUNT, that is ((unsigned int)(-1)) from stack.c. -/
def STACK_MAX_REFCOUNT : Nat := UINT_MOD - 1

/-- Capacity of the fixed stack buffer, sizeof(stack_p->buf). -/
def STACK_BUF_SIZE : Nat := 1024

/-- STACK_MAX_ENTRIES_NONE from stack.h. -/
def STACK_MAX_ENTRIES_NONE : Nat := 0

/-- STACK_MAX_ENTRY_SIZE_NONE from stack.h. -/
def STACK_MAX_ENTRY_SIZE_NONE : Nat := 0

/-- STACK_MAX_SIZE_NONE from stack.h. -/
def STACK_MAX_SIZE_NONE : Nat := 0

/-- STACK_DEFAULT_ENTRY_SIZE from stack.h, sizeof(void *). -/
def STACK_DEFAULT_ENTRY_SIZE : Nat := 8

/-- Stack operation return codes (enum stack_err_e from stack.h). -/
inductive stack_err_e where
  | STACK_E_OK
  | STACK_E_FULL
  | STACK_E_INVALID
  | STACK_E_NOMEM
  | STACK_E_EMPTY
  | STACK_E_INTERNAL
  | STACK_E_BUF_OVERFLOW
  | STACK_E_MAX_REFCOUNT
deriving DecidableEq, Repr

open stack_err_e

/-- stack_err_e_is_error from stack.h: every code other than OK is an error. -/
def stack_err_e_is_error (err : stack_err_e) : Bool :=
  decide (err ≠ STACK_E_OK)

/-- struct stack_ from stack.c.  The self pointer is modelled by `self_ok`
(whether `stack_p->self == stack_p` holds for this allocation). -/
structure stack_t where
  self_ok : Bool
  buf : List Nat
  buf_free_size : Nat
  num_entries : Nat
  refcount : Nat
deriving DecidableEq, Repr

/-- Read `len` bytes of `buf` starting at offset `off`; `none` when the
access would run past the end of the buffer. -/
def readBytes (buf : List Nat) (off len : Nat) : Option (List Nat) :=
  if off + len ≤ buf.length then some ((buf.drop off).take len) else none

/-- Overwrite the bytes of `buf` at offsets `[off, off + bs.length)` with
`bs`; `none` when the write would run past the end of the buffer. -/
def writeBytes (buf : List Nat) (off : Nat) (bs : List Nat) : Option (List Nat) :=
  if off + bs.length ≤ buf.length then
    some (buf.take off ++ bs ++ buf.drop (off + bs.length))
  else none

/-- Little-endian byte image of a machine integer store of width `k` bytes
(the store of a size_t value keeps only its low 8 bytes). -/
def encodeLE : Nat → Nat → List Nat
  | 0, _ => []
  | Nat.succ k, n => n % 256 :: encodeLE k (n / 256)

/-- Value of a little-endian byte sequence (a machine integer load). -/
def decodeLE : List Nat → Nat
  | [] => 0
  | b :: bs => b + 256 * decodeLE bs

/-- stack_is_valid from stack.c: NULL handles and handles whose self
pointer does not match are rejected. -/
def stack_is_valid (stack_p : Option stack_t) : Bool :=
  match stack_p with
  | none => false
  | some s => s.self_ok

/-- stack_is_empty_impl from stack.c. -/
def stack_is_empty_impl (s : stack_t) : Bool :=
  decide (s.num_entries < 1)

/-- stack_get_top_entry from stack.c, as the pair of buffer offsets of the
size field and of the data field of the top entry. -/
def stack_get_top_entry (s : stack_t) : Nat × Nat :=
  (s.buf_free_size, s.buf_free_size + SIZEOF_SIZE_T)

/-- stack_alloc_custom from stack.c.  `malloc_result` stands for the
outcome of malloc: `none` on allocation failure, otherwise the
indeterminate initial contents of the element buffer inside the freshly
allocated struct.  The four configuration parameters are ignored, as in
the source. -/
def stack_alloc_custom (max_entries max_entry_size default_entry_size max_size : Nat)
    (malloc_result : Option (List Nat)) : Option stack_t :=
  match max_entries, max_entry_size, default_entry_size, max_size, malloc_result with
  | _, _, _, _, none => none
  | _, _, _, _, some mem =>
    some { self_ok := true, buf := mem, buf_free_size := STACK_BUF_SIZE,
           num_entries := 0, refcount := 1 }

/-- stack_alloc from stack.h: stack_alloc_custom with the no-limit
sentinels. -/
def stack_alloc (malloc_result : Option (List Nat)) : Option stack_t :=
  stack_alloc_custom STACK_MAX_ENTRIES_NONE STACK_MAX_ENTRY_SIZE_NONE
    STACK_DEFAULT_ENTRY_SIZE STACK_MAX_SIZE_NONE malloc_result

/-- stack_get_num_entries from stack.c. -/
def stack_get_num_entries (stack_p : Option stack_t) : Nat :=
  if stack_is_valid stack_p = false then 0 else
  match stack_p with
  | none => 0
  | some s => s.num_entries

/-- stack_push from stack.c.  `entry_p` is the source pointer: `none` for
NULL, otherwise the sequence of bytes readable from it.  The result is
`none` exactly when the C call would access memory out of bounds (store of
the size field or memcpy past the buffer, or memcpy reading more bytes
than the source object holds); otherwise it is the post-state of the
handle together with the return code. -/
def stack_push (stack_p : Option stack_t) (entry_p : Option (List Nat))
    (entry_size : Nat) : Option (Option stack_t × stack_err_e) :=
  if stack_is_valid stack_p = false then some (stack_p, STACK_E_INVALID) else
  match stack_p with
  | none => none
  | some s =>
    if entry_p.isNone ∧ 0 < entry_size then some (stack_p, STACK_E_INVALID)
    else
      -- new_entry_size = sizeof(size_t) + entry_size, computed in size_t
      if s.buf_free_size < (SIZEOF_SIZE_T + entry_size) % SIZE_T_MOD then
        some (stack_p, STACK_E_FULL)
      else
        -- reserve space, then *buf_entry_size_p = entry_size at the new
        -- top-of-stack offset (stack_get_top_entry of the updated stack)
        match writeBytes s.buf (s.buf_free_size - (SIZEOF_SIZE_T + entry_size) % SIZE_T_MOD)
            (encodeLE SIZEOF_SIZE_T entry_size) with
        | none => none
        | some buf2 =>
          if 0 < entry_size then
            match entry_p with
            | none => none
            | some data =>
              if data.length < entry_size then none
              else
                match writeBytes buf2
                    (s.buf_free_size - (SIZEOF_SIZE_T + entry_size) % SIZE_T_MOD + SIZEOF_SIZE_T)
                    (data.take entry_size) with
                | none => none
                | some buf3 =>
                  some (some { s with buf := buf3, num_entries := (s.num_entries + 1) % SIZE_T_MOD, buf_free_size := s.buf_free_size - (SIZEOF_SIZE_T + entry_size) % SIZE_T_MOD }, STACK_E_OK)
          else
            some (some { s with buf := buf2, num_entries := (s.num_entries + 1) % SIZE_T_MOD, buf_free_size := s.buf_free_size - (SIZEOF_SIZE_T + entry_size) % SIZE_T_MOD }, STACK_E_OK)

/-- Outcome of stack_peek as observed by the caller: the return code, the
bytes copied into the output buffer (`none` when no memcpy happened), and
the value written back through entry_size_p (`none` when nothing was
written through it). -/
structure PeekOut where
  err : stack_err_e
  copied : Option (List Nat)
  size_out : Option Nat
deriving DecidableEq, Repr

/-- stack_peek from stack.c.  `entry_present` tells whether the output
buffer pointer entry_p is non-NULL; `entry_size_in` is `none` when
entry_size_p is NULL and otherwise holds the input value *entry_size_p
(the capacity of the output buffer).  stack_peek takes the stack by const
pointer and its body stores nothing into the stack, so no post-state is
returned.  `none` models an out-of-bounds buffer read (undefined
behavior, impossible on well-formed states). -/
def stack_peek (stack_p : Option stack_t) (entry_present : Bool)
    (entry_size_in : Option Nat) : Option PeekOut :=
  if stack_is_valid stack_p = false then some ⟨STACK_E_INVALID, none, none⟩ else
  match stack_p with
  | none => none
  | some s =>
    match entry_size_in with
    | none => some ⟨STACK_E_INVALID, none, none⟩
    | some in_entry_size =>
      -- in_entry_size = *entry_size_p is read only when entry_p is non-NULL
      if entry_present ∧ in_entry_size < 1 then some ⟨STACK_E_INVALID, none, none⟩
      else if stack_is_empty_impl s then some ⟨STACK_E_EMPTY, none, none⟩
      else
        match readBytes s.buf (stack_get_top_entry s).1 SIZEOF_SIZE_T with
        | none => none
        | some szBytes =>
          if 0 < decodeLE szBytes ∧ entry_present then
            if in_entry_size < decodeLE szBytes then
              some ⟨STACK_E_BUF_OVERFLOW, none, none⟩
            else
              match readBytes s.buf (stack_get_top_entry s).2 (decodeLE szBytes) with
              | none => none
              | some data => some ⟨STACK_E_OK, some data, some (decodeLE szBytes)⟩
          else some ⟨STACK_E_OK, none, some (decodeLE szBytes)⟩

/-- stack_pop from stack.c: first stack_peek with the same arguments, an
early return on any error, and only then the commit that releases the top
entry (buf_free_size += sizeof(size_t) + *entry_size_p, in size_t
arithmetic, and num_entries--).  The defensive `none` arms are
unreachable: a successful peek guarantees a valid handle and a written
size. -/
def stack_pop (stack_p : Option stack_t) (entry_present : Bool)
    (entry_size_in : Option Nat) : Option (Option stack_t × PeekOut) :=
  match stack_peek stack_p entry_present entry_size_in with
  | none => none
  | some r =>
    if stack_err_e_is_error r.err then some (stack_p, r)
    else
      match stack_p, r.size_out with
      | some s, some sz =>
        some (some { s with buf_free_size := (s.buf_free_size + (SIZEOF_SIZE_T + sz) % SIZE_T_MOD) % SIZE_T_MOD, num_entries := s.num_entries - 1 }, r)
      | _, _ => none

/-- stack_incr_refcount from stack.c. -/
def stack_incr_refcount (stack_p : Option stack_t) : Option stack_t × stack_err_e :=
  if stack_is_valid stack_p = false then (stack_p, STACK_E_INVALID) else
  match stack_p with
  | none => (stack_p, STACK_E_INVALID)
  | some s =>
    if STACK_MAX_REFCOUNT ≤ s.refcount then (stack_p, STACK_E_MAX_REFCOUNT)
    else (some { s with refcount := s.refcount + 1 }, STACK_E_OK)

/-- stack_get_refcount from stack.c. -/
def stack_get_refcount (stack_p : Option stack_t) : Nat :=
  if stack_is_valid stack_p = false then 0 else
  match stack_p with
  | none => 0
  | some s => s.refcount

/-- stack_free from stack.c: a NULL handle is a no-op; otherwise the
reference count is decremented (unsigned int arithmetic) with no validity
check, and the memory is released exactly when it reaches zero (the handle
then dangles, modelled as `none`). -/
def stack_free (stack_p : Option stack_t) : Option stack_t :=
  match stack_p with
  | none => none
  | some s =>
    if (s.refcount + (UINT_MOD - 1)) % UINT_MOD = 0 then none
    else some { s with refcount := (s.refcount + (UINT_MOD - 1)) % UINT_MOD }

/-- Parse the packed entries of a buffer: `parseEntries buf k off` walks
`k` size-prefixed entries starting at offset `off` (the first is the top
of the stack) and succeeds when they tile the buffer exactly to its end,
returning the data bytes of each entry in stack order. -/
def parseEntries (buf : List Nat) : Nat → Nat → Option (List (List Nat))
  | 0, off => if off = buf.length then some [] else none
  | Nat.succ k, off =>
    (readBytes buf off SIZEOF_SIZE_T).bind fun szb =>
      (readBytes buf (off + SIZEOF_SIZE_T) (decodeLE szb)).bind fun data =>
        (parseEntries buf k (off + SIZEOF_SIZE_T + decodeLE szb)).map fun rest =>
          data :: rest

/-- Abstraction function: the list of entries stored in a stack, top
first. -/
def entriesOf (s : stack_t) : List (List Nat) :=
  (parseEntries s.buf s.num_entries s.buf_free_size).getD []

/-- Well-formed stack states: the buffer has its declared capacity and the
recorded number of entries tiles the used part of the buffer exactly. -/
def stackWF (s : stack_t) : Prop :=
  s.buf.length = STACK_BUF_SIZE ∧
  (parseEntries s.buf s.num_entries s.buf_free_size).isSome = true

instance (s : stack_t) : Decidable (stackWF s) := by
  unfold stackWF; infer_instance

/-! Byte-level lemmas -/

theorem encodeLE_length (k n : Nat) : (encodeLE k n).length = k := by
  induction k generalizing n with
  | zero => rfl
  | succ k ih => simp [encodeLE, ih]

theorem decodeLE_encodeLE (k n : Nat) : decodeLE (encodeLE k n) = n % 256 ^ k := by
  induction k generalizing n with
  | zero => simp [encodeLE, decodeLE, Nat.mod_one]
  | succ k ih =>
    rw [encodeLE, decodeLE, ih, pow_succ', Nat.mod_mul]

theorem readBytes_eq {buf : List Nat} {off len : Nat} (h : off + len ≤ buf.length) :
    readBytes buf off len = some ((buf.drop off).take len) := by
  simp [readBytes, h]

theorem readBytes_bound {buf out : List Nat} {off len : Nat}
    (h : readBytes buf off len = some out) : off + len ≤ buf.length := by
  unfold readBytes at h
  split at h
  · assumption
  · cases h

theorem readBytes_length {buf out : List Nat} {off len : Nat}
    (h : readBytes buf off len = some out) : out.length = len := by
  unfold readBytes at h
  split at h
  · cases h
    simp only [List.length_take, List.length_drop]
    omega
  · cases h

theorem writeBytes_eq {buf : List Nat} {off : Nat} {bs : List Nat}
    (h : off + bs.length ≤ buf.length) :
    writeBytes buf off bs = some (buf.take off ++ bs ++ buf.drop (off + bs.length)) := by
  simp [writeBytes, h]

theorem writeBytes_bound {buf buf' bs : List Nat} {off : Nat}
    (h : writeBytes buf off bs = some buf') : off + bs.length ≤ buf.length := by
  unfold writeBytes at h
  split at h
  · assumption
  · cases h

theorem writeBytes_length {buf buf' bs : List Nat} {off : Nat}
    (h : writeBytes buf off bs = some buf') : buf'.length = buf.length := by
  have hb := writeBytes_bound h
  rw [writeBytes_eq hb] at h
  cases h
  simp only [List.length_append, List.length_take, List.length_drop]
  omega

theorem writeBytes_take {buf buf' bs : List Nat} {off : Nat}
    (h : writeBytes buf off bs = some buf') : buf'.take off = buf.take off := by
  have hb := writeBytes_bound h
  rw [writeBytes_eq hb] at h
  cases h
  have hlen : (buf.take off).length = off := by
    simp only [List.length_take]
    omega
  rw [List.append_assoc]
  exact List.take_left' hlen

theorem writeBytes_drop {buf buf' bs : List Nat} {off : Nat}
    (h : writeBytes buf off bs = some buf') :
    buf'.drop (off + bs.length) = buf.drop (off + bs.length) := by
  have hb := writeBytes_bound h
  rw [writeBytes_eq hb] at h
  cases h
  have hlen : (buf.take off ++ bs).length = off + bs.length := by
    simp only [List.length_append, List.length_take]
    omega
  exact List.drop_left' hlen

theorem readBytes_writeBytes {buf buf' bs : List Nat} {off : Nat}
    (h : writeBytes buf off bs = some buf') :
    readBytes buf' off bs.length = some bs := by
  have hb := writeBytes_bound h
  have hl := writeBytes_length h
  have hdrop : buf'.drop off = bs ++ buf.drop (off + bs.length) := by
    rw [writeBytes_eq hb] at h
    cases h
    have hlen : (buf.take off).length = off := by
      simp only [List.length_take]
      omega
    rw [List.append_assoc]
    exact List.drop_left' hlen
  rw [readBytes_eq (by omega), hdrop, List.take_left' rfl]

theorem readBytes_congr_drop {buf₁ buf₂ : List Nat} (h1 : buf₁.length = buf₂.length)
    {m : Nat} (h2 : buf₁.drop m = buf₂.drop m) {off len : Nat} (hm : m ≤ off) :
    readBytes buf₁ off len = readBytes buf₂ off len := by
  have hd : buf₁.drop off = buf₂.drop off := by
    have e1 : buf₁.drop off = (buf₁.drop m).drop (off - m) := by
      rw [List.drop_drop]
      congr 1
      omega
    have e2 : buf₂.drop off = (buf₂.drop m).drop (off - m) := by
      rw [List.drop_drop]
      congr 1
      omega
    rw [e1, e2, h2]
  unfold readBytes
  rw [h1, hd]

theorem readBytes_congr_take {buf₁ buf₂ : List Nat} (h1 : buf₁.length = buf₂.length)
    {m : Nat} (h2 : buf₁.take m = buf₂.take m) {off len : Nat} (hm : off + len ≤ m) :
    readBytes buf₁ off len = readBytes buf₂ off len := by
  have key : ∀ buf : List Nat, (buf.drop off).take len = ((buf.take m).drop off).take len := by
    intro buf
    rw [List.drop_take, List.take_take]
    congr 1
    omega
  unfold readBytes
  rw [h1, key buf₁, key buf₂, h2]

theorem writeBytes_read_before {buf buf' bs : List Nat} {off : Nat}
    (h : writeBytes buf off bs = some buf') {off2 len2 : Nat} (h2 : off2 + len2 ≤ off) :
    readBytes buf' off2 len2 = readBytes buf off2 len2 :=
  readBytes_congr_take (writeBytes_length h) (writeBytes_take h) h2

theorem writeBytes_read_after {buf buf' bs : List Nat} {off : Nat}
    (h : writeBytes buf off bs = some buf') {off2 len2 : Nat}
    (h2 : off + bs.length ≤ off2) :
    readBytes buf' off2 len2 = readBytes buf off2 len2 :=
  readBytes_congr_drop (writeBytes_length h) (writeBytes_drop h) h2

/-! Lemmas about parseEntries -/

/-- Destructured form of a successful parse of `k + 1` entries. -/
theorem parseEntries_succ_inv {buf : List Nat} {k off : Nat} {l : List (List Nat)}
    (h : parseEntries buf (k + 1) off = some l) :
    ∃ szb data rest, readBytes buf off SIZEOF_SIZE_T = some szb ∧
      readBytes buf (off + SIZEOF_SIZE_T) (decodeLE szb) = some data ∧
      parseEntries buf k (off + SIZEOF_SIZE_T + decodeLE szb) = some rest ∧
      l = data :: rest := by
  unfold parseEntries at h
  cases h8 : readBytes buf off SIZEOF_SIZE_T with
  | none => rw [h8] at h; cases h
  | some szb =>
    rw [h8] at h
    simp only [Option.some_bind] at h
    cases hd : readBytes buf (off + SIZEOF_SIZE_T) (decodeLE szb) with
    | none => rw [hd] at h; cases h
    | some data =>
      rw [hd] at h
      simp only [Option.some_bind] at h
      cases hp : parseEntries buf k (off + SIZEOF_SIZE_T + decodeLE szb) with
      | none => rw [hp] at h; cases h
      | some rest =>
        rw [hp] at h
        simp only [Option.map_some'] at h
        cases h
        exact ⟨szb, data, rest, rfl, hd, hp, rfl⟩

/-- Rebuild a successful parse of `k + 1` entries from its parts. -/
theorem parseEntries_succ_intro {buf : List Nat} {k off : Nat} {szb data : List Nat}
    {rest : List (List Nat)}
    (h8 : readBytes buf off SIZEOF_SIZE_T = some szb)
    (hd : readBytes buf (off + SIZEOF_SIZE_T) (decodeLE szb) = some data)
    (hp : parseEntries buf k (off + SIZEOF_SIZE_T + decodeLE szb) = some rest) :
    parseEntries buf (k + 1) off = some (data :: rest) := by
  unfold parseEntries
  rw [h8]
  simp only [Option.some_bind]
  rw [hd]
  simp only [Option.some_bind]
  rw [hp]
  simp only [Option.map_some']

theorem parseEntries_zero {buf : List Nat} {off : Nat} :
    parseEntries buf 0 off = if off = buf.length then some [] else none := rfl

theorem parseEntries_length {buf : List Nat} :
    ∀ {k off : Nat} {l : List (List Nat)}, parseEntries buf k off = some l → l.length = k := by
  intro k
  induction k with
  | zero =>
    intro off l h
    rw [parseEntries_zero] at h
    split at h
    · cases h; rfl
    · cases h
  | succ k ih =>
    intro off l h
    obtain ⟨szb, data, rest, h8, hd, hp, rfl⟩ := parseEntries_succ_inv h
    simp [ih hp]

theorem parseEntries_sum {buf : List Nat} :
    ∀ {k off : Nat} {l : List (List Nat)}, parseEntries buf k off = some l →
      off + (l.map (fun d => SIZEOF_SIZE_T + d.length)).sum = buf.length := by
  intro k
  induction k with
  | zero =>
    intro off l h
    rw [parseEntries_zero] at h
    split at h
    · cases h; simpa
    · cases h
  | succ k ih =>
    intro off l h
    obtain ⟨szb, data, rest, h8, hd, hp, rfl⟩ := parseEntries_succ_inv h
    have hdl : data.length = decodeLE szb := readBytes_length hd
    have := ih hp
    simp only [List.map_cons, List.sum_cons]
    omega

theorem parseEntries_congr {buf₁ buf₂ : List Nat} (h1 : buf₁.length = buf₂.length)
    {m : Nat} (h2 : buf₁.drop m = buf₂.drop m) :
    ∀ k off, m ≤ off → parseEntries buf₁ k off = parseEntries buf₂ k off := by
  intro k
  induction k with
  | zero =>
    intro off hm
    rw [parseEntries_zero, parseEntries_zero, h1]
  | succ k ih =>
    intro off hm
    show (readBytes buf₁ off SIZEOF_SIZE_T).bind _ = (readBytes buf₂ off SIZEOF_SIZE_T).bind _
    rw [readBytes_congr_drop h1 h2 hm]
    cases h8 : readBytes buf₂ off SIZEOF_SIZE_T with
    | none => rfl
    | some szb =>
      simp only [Option.some_bind]
      have hr2 : readBytes buf₁ (off + SIZEOF_SIZE_T) (decodeLE szb) =
          readBytes buf₂ (off + SIZEOF_SIZE_T) (decodeLE szb) :=
        readBytes_congr_drop h1 h2 (by omega)
      rw [hr2]
      cases hd : readBytes buf₂ (off + SIZEOF_SIZE_T) (decodeLE szb) with
      | none => rfl
      | some data =>
        simp only [Option.some_bind]
        rw [ih (off + SIZEOF_SIZE_T + decodeLE szb) (by omega)]

/-- Every stored entry accounts for at least a size field. -/
theorem entry_sizes_lower_bound (l : List (List Nat)) :
    SIZEOF_SIZE_T * l.length ≤ (l.map (fun d => SIZEOF_SIZE_T + d.length)).sum := by
  induction l with
  | nil => simp
  | cons d l ih =>
    simp only [List.map_cons, List.sum_cons, List.length_cons]
    have : SIZEOF_SIZE_T * (l.length + 1) = SIZEOF_SIZE_T * l.length + SIZEOF_SIZE_T := by ring
    omega

/-! Lemmas about stack_push -/


theorem drop_congr_ge {l₁ l₂ : List Nat} {a : Nat} (h : l₁.drop a = l₂.drop a)
    {b : Nat} (hab : a ≤ b) : l₁.drop b = l₂.drop b := by
  have e1 : l₁.drop b = (l₁.drop a).drop (b - a) := by
    rw [List.drop_drop]
    congr 1
    omega
  have e2 : l₂.drop b = (l₂.drop a).drop (b - a) := by
    rw [List.drop_drop]
    congr 1
    omega
  rw [e1, e2, h]

theorem decodeLE_encodeLE_size (n : Nat) :
    decodeLE (encodeLE SIZEOF_SIZE_T n) = n % SIZE_T_MOD := by
  rw [decodeLE_encodeLE]
  norm_num [SIZEOF_SIZE_T, SIZE_T_MOD]

theorem stack_push_ok {s : stack_t} {e : Option (List Nat)} {n : Nat} {h' : Option stack_t}
    (hwf : stackWF s) (hp : stack_push (some s) e n = some (h', STACK_E_OK)) :
    ∃ s', h' = some s' ∧ stackWF s' ∧ s'.self_ok = s.self_ok ∧ s'.refcount = s.refcount ∧
      s'.num_entries = s.num_entries + 1 ∧ SIZEOF_SIZE_T + n ≤ s.buf_free_size ∧
      s'.buf_free_size = s.buf_free_size - (SIZEOF_SIZE_T + n) ∧
      entriesOf s' = (e.getD []).take n :: entriesOf s := by
  obtain ⟨hbl, hps⟩ := hwf
  obtain ⟨l, hl⟩ := Option.isSome_iff_exists.mp hps
  have hsum := parseEntries_sum hl
  have hcnt := parseEntries_length hl
  have hlow := entry_sizes_lower_bound l
  simp only [STACK_BUF_SIZE] at hbl
  rw [hbl] at hsum
  simp only [SIZEOF_SIZE_T] at hsum hlow
  unfold stack_push at hp
  split at hp
  · simp at hp
  · simp only [Option.isNone_some] at hp
    split at hp
    · simp at hp
    · split at hp
      · simp at hp
      · rename_i hfull
        simp only [SIZEOF_SIZE_T, SIZE_T_MOD] at hfull
        push_neg at hfull
        split at hp
        · cases hp
        · rename_i buf2 hw1
          simp only [SIZEOF_SIZE_T, SIZE_T_MOD] at hw1
          have hlen2 : buf2.length = 1024 := by rw [writeBytes_length hw1, hbl]
          have hbound1 := writeBytes_bound hw1
          rw [encodeLE_length, hbl] at hbound1
          split at hp
          · -- entry_size > 0: the data bytes are written as well
            rename_i hn
            split at hp
            · cases hp
            · rename_i data hdata
              split at hp
              · cases hp
              · rename_i hdl
                push_neg at hdl
                split at hp
                · cases hp
                · rename_i buf3 hw2
                  simp only [Option.some.injEq, Prod.mk.injEq] at hp
                  obtain ⟨hh, -⟩ := hp
                  simp only [SIZEOF_SIZE_T, SIZE_T_MOD] at hw2
                  have htn : (data.take n).length = n := by
                    simp only [List.length_take]
                    omega
                  have hlen3 : buf3.length = 1024 := by rw [writeBytes_length hw2, hlen2]
                  have hbound2 := writeBytes_bound hw2
                  rw [htn, hlen2] at hbound2
                  have hr : (8 + n) % 18446744073709551616 = 8 + n :=
                    Nat.mod_eq_of_lt (by omega)
                  rw [hr] at hw1 hw2 hfull hbound1 hbound2
                  have hread1 : readBytes buf3 (s.buf_free_size - (8 + n)) 8 =
                      some (encodeLE 8 n) := by
                    have hb : readBytes buf3 (s.buf_free_size - (8 + n)) 8 =
                        readBytes buf2 (s.buf_free_size - (8 + n)) 8 :=
                      writeBytes_read_before hw2 (le_refl _)
                    rw [hb]
                    have hrb := readBytes_writeBytes hw1
                    rwa [encodeLE_length] at hrb
                  have hdec : decodeLE (encodeLE 8 n) = n := by
                    have hd0 := decodeLE_encodeLE_size n
                    simp only [SIZEOF_SIZE_T, SIZE_T_MOD] at hd0
                    rw [hd0]
                    omega
                  have hread2 : readBytes buf3 (s.buf_free_size - (8 + n) + 8) n =
                      some (data.take n) := by
                    have hrb := readBytes_writeBytes hw2
                    rwa [htn] at hrb
                  have hoff : s.buf_free_size - (8 + n) + 8 + n = s.buf_free_size := by omega
                  have hdrop2 : buf2.drop s.buf_free_size = s.buf.drop s.buf_free_size := by
                    have h0 := writeBytes_drop hw1
                    rw [encodeLE_length] at h0
                    exact drop_congr_ge h0 (by omega)
                  have hdrop3 : buf3.drop s.buf_free_size = buf2.drop s.buf_free_size := by
                    have h0 := writeBytes_drop hw2
                    rw [htn, hoff] at h0
                    exact h0
                  have hparse_old : parseEntries buf3 s.num_entries s.buf_free_size = some l := by
                    rw [parseEntries_congr (by rw [hlen3, hbl]) (hdrop3.trans hdrop2)
                      s.num_entries s.buf_free_size (le_refl _)]
                    exact hl
                  have hd' : readBytes buf3 (s.buf_free_size - (8 + n) + 8)
                      (decodeLE (encodeLE 8 n)) = some (data.take n) := by
                    rw [hdec]
                    exact hread2
                  have hp' : parseEntries buf3 s.num_entries
                      (s.buf_free_size - (8 + n) + 8 + decodeLE (encodeLE 8 n)) = some l := by
                    rw [hdec, hoff]
                    exact hparse_old
                  have hparse_new : parseEntries buf3 (s.num_entries + 1)
                      (s.buf_free_size - (8 + n)) = some (data.take n :: l) :=
                    parseEntries_succ_intro hread1 hd' hp'
                  have hk1 : (s.num_entries + 1) % 18446744073709551616 = s.num_entries + 1 := by
                    omega
                  subst hh
                  refine ⟨_, rfl, ?_, rfl, rfl, ?_, ?_, ?_, ?_⟩
                  · constructor
                    · simpa [SIZEOF_SIZE_T, STACK_BUF_SIZE] using hlen3
                    · simp only [SIZEOF_SIZE_T, SIZE_T_MOD, hr, hk1, hparse_new, Option.isSome_some]
                  · simp only [SIZEOF_SIZE_T, SIZE_T_MOD]
                    omega
                  · simp only [SIZEOF_SIZE_T, SIZE_T_MOD]
                    omega
                  · simp only [SIZEOF_SIZE_T, SIZE_T_MOD]
                    omega
                  · simp only [entriesOf, SIZEOF_SIZE_T, SIZE_T_MOD, hr, hk1, hparse_new, hl,
                      Option.getD_some, hdata, Option.getD_some]
          · -- entry_size = 0: only the size field is written
            rename_i hn
            have hn0 : n = 0 := by omega
            subst hn0
            simp only [Option.some.injEq, Prod.mk.injEq] at hp
            obtain ⟨hh, -⟩ := hp
            have hr0 : (8 + 0) % 18446744073709551616 = 8 := by norm_num
            rw [hr0] at hw1 hfull hbound1
            have hread1 : readBytes buf2 (s.buf_free_size - 8) 8 = some (encodeLE 8 0) := by
              have hrb := readBytes_writeBytes hw1
              rwa [encodeLE_length] at hrb
            have hdec0 : decodeLE (encodeLE 8 0) = 0 := by
              rw [decodeLE_encodeLE]
              norm_num
            have hread2 : readBytes buf2 (s.buf_free_size - 8 + 8) (decodeLE (encodeLE 8 0)) =
                some [] := by
              rw [hdec0, readBytes_eq (by omega)]
              simp
            have hoff0 : s.buf_free_size - 8 + 8 = s.buf_free_size := by omega
            have hdrop2 : buf2.drop s.buf_free_size = s.buf.drop s.buf_free_size := by
              have h0 := writeBytes_drop hw1
              rw [encodeLE_length, hoff0] at h0
              exact h0
            have hparse_old : parseEntries buf2 s.num_entries
                (s.buf_free_size - 8 + 8 + decodeLE (encodeLE 8 0)) = some l := by
              rw [hdec0, show s.buf_free_size - 8 + 8 + 0 = s.buf_free_size by omega]
              rw [parseEntries_congr (by rw [hlen2, hbl]) hdrop2
                s.num_entries s.buf_free_size (le_refl _)]
              exact hl
            have hparse_new : parseEntries buf2 (s.num_entries + 1)
                (s.buf_free_size - 8) = some ([] :: l) :=
              parseEntries_succ_intro hread1 hread2 hparse_old
            have hk1 : (s.num_entries + 1) % 18446744073709551616 = s.num_entries + 1 := by
              omega
            subst hh
            refine ⟨_, rfl, ?_, rfl, rfl, ?_, ?_, ?_, ?_⟩
            · constructor
              · simpa [SIZEOF_SIZE_T, STACK_BUF_SIZE] using hlen2
              · simp only [SIZEOF_SIZE_T, SIZE_T_MOD, hr0, hk1, hparse_new, Option.isSome_some]
            · simp only [SIZEOF_SIZE_T, SIZE_T_MOD]
              omega
            · simp only [SIZEOF_SIZE_T, SIZE_T_MOD]
              omega
            · simp only [SIZEOF_SIZE_T, SIZE_T_MOD]
            · simp only [entriesOf, SIZEOF_SIZE_T, SIZE_T_MOD, hr0, hk1, hparse_new, hl,
                Option.getD_some, List.take_zero]

/-- A push that returns OK was made through a handle that passed the
validity check. -/
theorem stack_push_valid {s : stack_t} {e : Option (List Nat)} {n : Nat}
    {h' : Option stack_t}
    (hp : stack_push (some s) e n = some (h', STACK_E_OK)) : s.self_ok = true := by
  unfold stack_push at hp
  by_cases hv : s.self_ok = true
  · exact hv
  · have hv2 : stack_is_valid (some s) = false := by
      simp [stack_is_valid]
      exact Bool.not_eq_true _ |>.mp hv
    rw [if_pos hv2] at hp
    simp at hp

/-- A push that returns an error code leaves the handle untouched (the
early returns of stack_push precede every mutation). -/
theorem stack_push_err_frame {s : stack_t} {e : Option (List Nat)} {n : Nat}
    {h' : Option stack_t} {c : stack_err_e}
    (hp : stack_push (some s) e n = some (h', c)) (hc : c ≠ STACK_E_OK) :
    h' = some s := by
  unfold stack_push at hp
  split at hp
  · simp at hp
    exact hp.1.symm
  · simp only [Option.isNone_some] at hp
    split at hp
    · simp at hp
      exact hp.1.symm
    · split at hp
      · simp at hp
        exact hp.1.symm
      · split at hp
        · cases hp
        · split at hp
          · split at hp
            · cases hp
            · split at hp
              · cases hp
              · split at hp
                · cases hp
                · simp at hp
                  exact absurd hp.2.symm hc
          · simp at hp
            exact absurd hp.2.symm hc

/-! Lemmas about stack_peek and stack_pop -/

theorem stack_peek_top {s : stack_t} {v : List Nat} {rest : List (List Nat)}
    (hwf : stackWF s) (hs : s.self_ok = true) (he : entriesOf s = v :: rest) :
    stack_peek (some s) true (some 1024) =
      some ⟨STACK_E_OK, if v.length = 0 then none else some v, some v.length⟩ := by
  obtain ⟨hbl, hps⟩ := hwf
  obtain ⟨l, hl⟩ := Option.isSome_iff_exists.mp hps
  have he' : l = v :: rest := by
    rw [entriesOf, hl] at he
    simpa using he
  subst he'
  have hnum : s.num_entries = rest.length + 1 := by
    have := parseEntries_length hl
    simpa using this.symm
  rw [hnum] at hl
  obtain ⟨szb, data, rest', h8, hd, hpr, hcons⟩ := parseEntries_succ_inv hl
  injection hcons with hv hr
  subst hv
  subst hr
  have hvlen : decodeLE szb = v.length := (readBytes_length hd).symm
  have hsum := parseEntries_sum hl
  rw [hbl] at hsum
  simp only [SIZEOF_SIZE_T, STACK_BUF_SIZE, List.map_cons, List.sum_cons] at hsum
  have hval : stack_is_valid (some s) = true := by simp [stack_is_valid, hs]
  have hemp : stack_is_empty_impl s = false := by
    simp [stack_is_empty_impl, hnum]
  rw [hvlen] at hd
  by_cases hv0 : v.length = 0
  · simp [stack_peek, hval, hemp, h8, stack_get_top_entry, hvlen, hv0]
  · have hnlt : ¬ (1024 < v.length) := by omega
    simp [stack_peek, hval, hemp, h8, stack_get_top_entry, hvlen, hd, hv0, hnlt]

theorem stack_peek_ok_inv {s : stack_t} {ep : Bool} {si : Option Nat} {r : PeekOut}
    (hwf : stackWF s) (hp : stack_peek (some s) ep si = some r)
    (hok : r.err = STACK_E_OK) :
    ∃ v rest, entriesOf s = v :: rest ∧ r.size_out = some v.length := by
  obtain ⟨hbl, hps⟩ := hwf
  obtain ⟨l, hl⟩ := Option.isSome_iff_exists.mp hps
  unfold stack_peek at hp
  split at hp
  · cases hp; cases hok
  · simp only [stack_get_top_entry] at hp
    split at hp
    · cases hp; cases hok
    · rename_i in_sz
      split at hp
      · cases hp; cases hok
      · split at hp
        · cases hp; cases hok
        · rename_i hemp
          -- the stack is non-empty
          have hnum : 1 ≤ s.num_entries := by
            simp [stack_is_empty_impl] at hemp
            omega
          have hlen : l.length = s.num_entries := parseEntries_length hl
          obtain ⟨v, rest, rfl⟩ : ∃ v rest, l = v :: rest := by
            cases l with
            | nil => simp at hlen; omega
            | cons a t => exact ⟨a, t, rfl⟩
          have hnum2 : s.num_entries = rest.length + 1 := by
            simp at hlen
            omega
          rw [hnum2] at hl
          obtain ⟨szb, data, rest', h8, hd, hpr, hcons⟩ := parseEntries_succ_inv hl
          injection hcons with hv hr
          subst hv
          subst hr
          have hvlen : decodeLE szb = v.length := (readBytes_length hd).symm
          have hent : entriesOf s = v :: rest := by
            rw [entriesOf, hnum2, hl]
            rfl
          split at hp
          · cases hp
          · rename_i szb2 h82
            have hsz : szb2 = szb := by
              have := h82.symm.trans h8
              exact Option.some.inj this
            subst hsz
            split at hp
            · split at hp
              · cases hp; cases hok
              · split at hp
                · cases hp
                · cases hp
                  exact ⟨v, rest, hent, by simp [hvlen]⟩
            · cases hp
              exact ⟨v, rest, hent, by simp [hvlen]⟩

/-- Committing a pop on a well-formed stack: the new free size and entry
count describe exactly the entries below the popped one. -/
theorem stack_pop_commit {s : stack_t} {v : List Nat} {rest : List (List Nat)}
    (hwf : stackWF s) (he : entriesOf s = v :: rest) :
    (s.buf_free_size + (SIZEOF_SIZE_T + v.length) % SIZE_T_MOD) % SIZE_T_MOD =
      s.buf_free_size + SIZEOF_SIZE_T + v.length ∧
    stackWF { s with
      buf_free_size :=
        (s.buf_free_size + (SIZEOF_SIZE_T + v.length) % SIZE_T_MOD) % SIZE_T_MOD,
      num_entries := s.num_entries - 1 } ∧
    entriesOf { s with
      buf_free_size :=
        (s.buf_free_size + (SIZEOF_SIZE_T + v.length) % SIZE_T_MOD) % SIZE_T_MOD,
      num_entries := s.num_entries - 1 } = rest := by
  obtain ⟨hbl, hps⟩ := hwf
  obtain ⟨l, hl⟩ := Option.isSome_iff_exists.mp hps
  have he' : l = v :: rest := by
    rw [entriesOf, hl] at he
    simpa using he
  subst he'
  have hnum : s.num_entries = rest.length + 1 := by
    have := parseEntries_length hl
    simpa using this.symm
  rw [hnum] at hl
  obtain ⟨szb, data, rest', h8, hd, hpr, hcons⟩ := parseEntries_succ_inv hl
  injection hcons with hv hr
  subst hv
  subst hr
  have hvlen : decodeLE szb = v.length := (readBytes_length hd).symm
  have hsum := parseEntries_sum hl
  rw [hbl] at hsum
  simp only [SIZEOF_SIZE_T, STACK_BUF_SIZE, List.map_cons, List.sum_cons] at hsum
  have hmod : (s.buf_free_size + (SIZEOF_SIZE_T + v.length) % SIZE_T_MOD) % SIZE_T_MOD =
      s.buf_free_size + SIZEOF_SIZE_T + v.length := by
    simp only [SIZEOF_SIZE_T, SIZE_T_MOD]
    omega
  rw [hvlen] at hpr
  refine ⟨hmod, ⟨hbl, ?_⟩, ?_⟩
  · rw [hmod, hnum, Nat.add_sub_cancel, hpr]
    rfl
  · rw [entriesOf]
    simp only
    rw [hmod, hnum, Nat.add_sub_cancel, hpr]
    rfl

/-- stack_pop on any error from the peek phase: the handle is returned
unchanged and the result is exactly the peek result. -/
theorem stack_pop_err_frame {h : Option stack_t} {ep : Bool} {si : Option Nat}
    {h' : Option stack_t} {r : PeekOut}
    (hp : stack_pop h ep si = some (h', r)) (he : r.err ≠ STACK_E_OK) :
    h' = h ∧ stack_peek h ep si = some r := by
  unfold stack_pop at hp
  cases hpk : stack_peek h ep si with
  | none => rw [hpk] at hp; cases hp
  | some r0 =>
    simp only [hpk] at hp
    split at hp
    · simp only [Option.some.injEq, Prod.mk.injEq] at hp
      obtain ⟨h1, h2⟩ := hp
      subst h2
      exact ⟨h1.symm, rfl⟩
    · rename_i hnoe
      simp only [stack_err_e_is_error, decide_eq_true_eq, Decidable.not_not] at hnoe
      split at hp
      · simp only [Option.some.injEq, Prod.mk.injEq] at hp
        obtain ⟨h1, h2⟩ := hp
        subst h2
        exact absurd hnoe he
      · cases hp

/-- stack_pop success on a well-formed stack: the peek outputs describe the
top entry and the commit removes exactly that entry. -/
theorem stack_pop_ok {s : stack_t} {ep : Bool} {si : Option Nat}
    {h' : Option stack_t} {r : PeekOut}
    (hwf : stackWF s) (hp : stack_pop (some s) ep si = some (h', r))
    (hok : r.err = STACK_E_OK) :
    ∃ s' v rest, h' = some s' ∧ entriesOf s = v :: rest ∧
      r.size_out = some v.length ∧ stackWF s' ∧ entriesOf s' = rest ∧
      s'.self_ok = s.self_ok ∧ s'.refcount = s.refcount ∧ s'.buf = s.buf ∧
      s'.num_entries = s.num_entries - 1 ∧
      s'.buf_free_size = s.buf_free_size + SIZEOF_SIZE_T + v.length := by
  unfold stack_pop at hp
  cases hpk : stack_peek (some s) ep si with
  | none => rw [hpk] at hp; cases hp
  | some r0 =>
    simp only [hpk] at hp
    split at hp
    · rename_i hiserr
      simp only [Option.some.injEq, Prod.mk.injEq] at hp
      obtain ⟨h1, h2⟩ := hp
      subst h2
      simp only [stack_err_e_is_error, decide_eq_true_eq] at hiserr
      exact absurd hok hiserr
    · split at hp
      · rename_i s0 sz hs0 hsz0
        have hss : s0 = s := (Option.some.inj hs0).symm
        subst hss
        simp only [Option.some.injEq, Prod.mk.injEq] at hp
        obtain ⟨h1, h2⟩ := hp
        subst h2
        obtain ⟨v, rest, hent, hszo⟩ := stack_peek_ok_inv hwf hpk hok
        have hszv : sz = v.length := by
          rw [hszo] at hsz0
          exact (Option.some.inj hsz0).symm
        subst hszv
        obtain ⟨hmod, hwf', hent'⟩ := stack_pop_commit hwf hent
        exact ⟨_, v, rest, h1.symm, hent, hszo, hwf', hent', rfl, rfl, rfl, rfl, hmod⟩
      · cases hp

/-- stack_pop with a full-size output buffer on a well-formed non-empty
stack returns the top entry byte for byte with its exact size and removes
exactly that entry. -/
theorem stack_pop_top {s : stack_t} {v : List Nat} {rest : List (List Nat)}
    (hwf : stackWF s) (hs : s.self_ok = true) (he : entriesOf s = v :: rest) :
    ∃ s', stack_pop (some s) true (some 1024) =
        some (some s',
          ⟨STACK_E_OK, if v.length = 0 then none else some v, some v.length⟩) ∧
      stackWF s' ∧ s'.self_ok = true ∧ entriesOf s' = rest := by
  have hpk := stack_peek_top hwf hs he
  obtain ⟨hmod, hwf', hent'⟩ := stack_pop_commit hwf he
  refine ⟨_, ?_, hwf', hs ▸ rfl, hent'⟩
  unfold stack_pop
  rw [hpk]
  simp [stack_err_e_is_error]

/-! Iterated pushes and pops (the round-trip harness) -/

/-- Push the byte strings `vs` in order (each with its exact length, as the
test driver does); succeeds only when every push returns OK. -/
def pushAll : Option stack_t → List (List Nat) → Option (Option stack_t)
  | h, [] => some h
  | h, v :: vs =>
    match stack_push h (some v) v.length with
    | none => none
    | some (h', c) => if c = STACK_E_OK then pushAll h' vs else none

/-- Pop `k` times, each with a full-size (1024 byte) output buffer;
succeeds only when every pop returns OK and reports exactly the number of
bytes it copied, and returns the copied byte strings in pop order. -/
def popAll : Option stack_t → Nat → Option (List (List Nat))
  | _, 0 => some []
  | h, Nat.succ k =>
    match stack_pop h true (some 1024) with
    | none => none
    | some (h', r) =>
      if r.err = STACK_E_OK ∧ r.size_out = some (r.copied.getD []).length then
        match popAll h' k with
        | none => none
        | some outs => some (r.copied.getD [] :: outs)
      else none

theorem pushAll_spec : ∀ {vs : List (List Nat)} {s : stack_t} {h' : Option stack_t},
    stackWF s → pushAll (some s) vs = some h' →
    ∃ t, h' = some t ∧ stackWF t ∧ entriesOf t = vs.reverse ++ entriesOf s ∧
      (vs = [] → t = s) ∧ (vs ≠ [] → t.self_ok = true) := by
  intro vs
  induction vs with
  | nil =>
    intro s h' hwf hp
    simp only [pushAll, Option.some.injEq] at hp
    exact ⟨s, hp.symm, hwf, by simp, fun _ => rfl, fun hne => absurd rfl hne⟩
  | cons v vs ih =>
    intro s h' hwf hp
    unfold pushAll at hp
    split at hp
    · cases hp
    · rename_i h1 c hpush
      split at hp
      · rename_i hc
        subst hc
        have hsv : s.self_ok = true := stack_push_valid hpush
        obtain ⟨s1, rfl, hwf1, hself1, _, _, _, _, hent1⟩ := stack_push_ok hwf hpush
        simp only [Option.getD_some, List.take_length] at hent1
        obtain ⟨t, rfl, hwft, hentt, hnil, hne⟩ := ih hwf1 hp
        refine ⟨t, rfl, hwft, ?_, by simp, fun _ => ?_⟩
        · rw [hentt, hent1]
          simp
        · by_cases hvs : vs = []
          · rw [hnil hvs, hself1, hsv]
          · exact hne hvs
      · cases hp

theorem popAll_spec : ∀ (k : Nat) {t : stack_t}, stackWF t → t.self_ok = true →
    k ≤ (entriesOf t).length → popAll (some t) k = some ((entriesOf t).take k) := by
  intro k
  induction k with
  | zero =>
    intro t _ _ _
    simp [popAll]
  | succ k ih =>
    intro t hwf hs hk
    obtain ⟨v, rest, hent⟩ : ∃ v rest, entriesOf t = v :: rest := by
      cases hE : entriesOf t with
      | nil => rw [hE] at hk; simp at hk
      | cons a b => exact ⟨a, b, rfl⟩
    obtain ⟨s', hpop, hwf', hs', hent'⟩ := stack_pop_top hwf hs hent
    have hcop : ((if v = [] then none else some v) : Option (List Nat)).getD [] = v := by
      split
      · rename_i h0
        simp [h0]
      · simp
    have hk' : k ≤ rest.length := by
      rw [hent] at hk
      simpa using hk
    have hrec := ih hwf' hs' (by rw [hent']; exact hk')
    rw [hent'] at hrec
    unfold popAll
    rw [hpop]
    simp [hrec, hcop, hent, List.take_succ_cons]

/-- C1: for every well-formed stack and every sequence of pushes of byte
strings v1..vn that all return OK, popping n times (each with a
full-size output buffer) returns the entries in strict LIFO order
vn, ..., v1, and every pop returns OK with exactly the pushed byte length
and byte-for-byte identical content (popAll checks the reported size
against the copied bytes and collects them). -/
theorem stack_lifo_roundtrip (s : stack_t) (vs : List (List Nat)) (h' : Option stack_t)
    (hwf : stackWF s) (hp : pushAll (some s) vs = some h') :
    popAll h' vs.length = some vs.reverse := by
  cases vs with
  | nil =>
    simp only [pushAll, Option.some.injEq] at hp
    subst hp
    simp [popAll]
  | cons v vs =>
    obtain ⟨t, rfl, hwft, hentt, -, hself⟩ := pushAll_spec hwf hp
    have hst : t.self_ok = true := hself (by simp)
    have hlen : (v :: vs).length ≤ (entriesOf t).length := by
      rw [hentt]
      simp
    rw [popAll_spec (v :: vs).length hwft hst hlen, hentt]
    rw [List.take_left' (by simp)]

/-- A concrete freshly allocated stack used by the witnesses. -/
def freshStack : stack_t :=
  { self_ok := true, buf := List.replicate 1024 0, buf_free_size := 1024,
    num_entries := 0, refcount := 1 }

/-- Concrete values pushed by the round-trip witness. -/
def lifoWitnessValues : List (List Nat) := [[1, 2], [3]]

/-- The handle after the witness pushes. -/
def lifoWitnessEnd : Option stack_t :=
  (pushAll (some freshStack) lifoWitnessValues).getD none

set_option maxRecDepth 40000 in
/-- The fresh stack is well formed. -/
theorem freshStack_wf : stackWF freshStack := by decide

set_option maxRecDepth 40000 in
/-- Witness for stack_lifo_roundtrip at a concrete stack and values. -/
theorem stack_lifo_roundtrip_witness :
    stackWF freshStack ∧
    pushAll (some freshStack) lifoWitnessValues = some lifoWitnessEnd ∧
    popAll lifoWitnessEnd lifoWitnessValues.length = some lifoWitnessValues.reverse :=
  ⟨freshStack_wf, rfl, stack_lifo_roundtrip _ _ _ freshStack_wf rfl⟩

/-- C2: a pop whose peek phase fails (invalid handle, NULL size pointer,
zero-capacity output buffer, empty stack, or an output buffer smaller than
the top entry) returns exactly the peek error and leaves the handle, and
with it num_entries, buf_free_size and the buffer contents, entirely
unchanged; in particular a BUF_OVERFLOW pop does not remove the top
entry. -/
theorem stack_pop_error_preserves_state (h : Option stack_t) (ep : Bool)
    (si : Option Nat) (h' : Option stack_t) (r : PeekOut)
    (hp : stack_pop h ep si = some (h', r)) (he : r.err ≠ STACK_E_OK) :
    h' = h ∧ stack_peek h ep si = some r :=
  stack_pop_err_frame hp he

/-- Witness for stack_pop_error_preserves_state: popping through a NULL
handle fails with INVALID and changes nothing. -/
theorem stack_pop_error_preserves_state_witness :
    (none : Option stack_t) = none ∧
    stack_peek (none : Option stack_t) true (some 4) =
      some ⟨STACK_E_INVALID, none, none⟩ :=
  stack_pop_error_preserves_state none true (some 4) none
    ⟨STACK_E_INVALID, none, none⟩ (by decide) (by decide)

/-- C10: whatever the stack handle (NULL, invalid or valid, empty or not)
and whether or not an output buffer is supplied, peek and pop return
INVALID when entry_size_p is NULL, and pop leaves the handle unchanged
(peek takes the stack by const pointer and performs no writes through
it). -/
theorem stack_null_size_ptr_invalid (h : Option stack_t) (ep : Bool) :
    stack_peek h ep none = some ⟨STACK_E_INVALID, none, none⟩ ∧
    stack_pop h ep none = some (h, ⟨STACK_E_INVALID, none, none⟩) := by
  have hpk : stack_peek h ep none = some ⟨STACK_E_INVALID, none, none⟩ := by
    cases h with
    | none => rfl
    | some s =>
      unfold stack_peek
      split
      · rfl
      · rfl
  refine ⟨hpk, ?_⟩
  unfold stack_pop
  rw [hpk]
  rfl

/-! One-call transition relation over the public operations -/

/-- The public operations that take a stack handle. -/
inductive StackOp where
  | opPush (entry_p : Option (List Nat)) (entry_size : Nat)
  | opPop (entry_present : Bool) (entry_size_in : Option Nat)
  | opPeek (entry_present : Bool) (entry_size_in : Option Nat)
  | opIncrRefcount
  | opGetNumEntries
  | opGetRefcount
  | opFree
deriving DecidableEq, Repr

/-- What the caller observes from one call. -/
inductive StackObs where
  | retCode (c : stack_err_e)
  | retPeek (r : PeekOut)
  | retPop (r : PeekOut)
  | retNat (n : Nat)
  | retUnit
deriving DecidableEq, Repr

/-- One call of a public operation through a handle: the post-state of the
handle and the observed outputs; `none` when the C execution of the call
is undefined.  stack_peek takes the stack by a const pointer and its body
stores nothing through it, so its post-state is the unchanged handle;
stack_get_num_entries and stack_get_refcount are likewise pure reads. -/
def stackStep (h : Option stack_t) : StackOp → Option (Option stack_t × StackObs)
  | .opPush e n => (stack_push h e n).map fun p => (p.1, .retCode p.2)
  | .opPop ep si => (stack_pop h ep si).map fun p => (p.1, .retPop p.2)
  | .opPeek ep si => (stack_peek h ep si).map fun r => (h, .retPeek r)
  | .opIncrRefcount =>
    some ((stack_incr_refcount h).1, .retCode (stack_incr_refcount h).2)
  | .opGetNumEntries => some (h, .retNat (stack_get_num_entries h))
  | .opGetRefcount => some (h, .retNat (stack_get_refcount h))
  | .opFree => some (stack_free h, .retUnit)

/-- C9: a peek call leaves the stack state (num_entries, refcount,
free size and buffer contents) unchanged, and an immediately repeated
peek with the same arguments returns the same result code, the same
copied bytes and the same reported size. -/
theorem stack_peek_idempotent (h : Option stack_t) (ep : Bool) (si : Option Nat)
    (h1 : Option stack_t) (o1 : StackObs)
    (hs : stackStep h (StackOp.opPeek ep si) = some (h1, o1)) :
    h1 = h ∧ stackStep h1 (StackOp.opPeek ep si) = some (h1, o1) := by
  simp only [stackStep] at hs ⊢
  cases hpk : stack_peek h ep si with
  | none => rw [hpk] at hs; cases hs
  | some r =>
    rw [hpk] at hs
    simp only [Option.map_some', Option.some.injEq, Prod.mk.injEq] at hs
    obtain ⟨he1, he2⟩ := hs
    subst he1
    subst he2
    simp [hpk]

/-- Witness for stack_peek_idempotent: peeking an empty stack twice. -/
theorem stack_peek_idempotent_witness :
    some freshStack = some freshStack ∧
    stackStep (some freshStack) (StackOp.opPeek false (some 0)) =
      some (some freshStack, StackObs.retPeek ⟨STACK_E_EMPTY, none, none⟩) :=
  stack_peek_idempotent (some freshStack) false (some 0) (some freshStack)
    (StackObs.retPeek ⟨STACK_E_EMPTY, none, none⟩) rfl

/-! Reachable states and the bookkeeping invariants -/

/-- Stack states reachable from a fresh allocation through any sequence of
public operations (with defined behavior) on the handle. -/
inductive stackReachable : stack_t → Prop where
  | alloc (me mes des ms : Nat) (mem : List Nat) (s : stack_t) :
      mem.length = STACK_BUF_SIZE →
      stack_alloc_custom me mes des ms (some mem) = some s →
      stackReachable s
  | step (s s' : stack_t) (op : StackOp) (o : StackObs) :
      stackReachable s → stackStep (some s) op = some (some s', o) →
      stackReachable s'

/-- Well-formedness is preserved by every public operation. -/
theorem stackReachable_wf {s : stack_t} (h : stackReachable s) : stackWF s := by
  induction h with
  | alloc me mes des ms mem s hlen halloc =>
    simp only [stack_alloc_custom, Option.some.injEq] at halloc
    subst halloc
    constructor
    · exact hlen
    · rw [parseEntries_zero]
      simp [hlen]
  | step s s' op o hre hstep ih =>
    cases op with
    | opPush e n =>
      simp only [stackStep] at hstep
      cases hq : stack_push (some s) e n with
      | none => rw [hq] at hstep; cases hstep
      | some p =>
        obtain ⟨hh, c⟩ := p
        rw [hq] at hstep
        simp only [Option.map_some', Option.some.injEq, Prod.mk.injEq] at hstep
        obtain ⟨h1, -⟩ := hstep
        subst h1
        by_cases hc : c = STACK_E_OK
        · subst hc
          obtain ⟨s1, hs1, hwf1, -, -, -, -, -, -⟩ := stack_push_ok ih hq
          rw [Option.some.inj hs1]
          exact hwf1
        · have hfr := stack_push_err_frame hq hc
          rw [Option.some.inj hfr]
          exact ih
    | opPop ep si =>
      simp only [stackStep] at hstep
      cases hq : stack_pop (some s) ep si with
      | none => rw [hq] at hstep; cases hstep
      | some p =>
        obtain ⟨hh, r⟩ := p
        rw [hq] at hstep
        simp only [Option.map_some', Option.some.injEq, Prod.mk.injEq] at hstep
        obtain ⟨h1, -⟩ := hstep
        subst h1
        by_cases hc : r.err = STACK_E_OK
        · obtain ⟨s1, v, rest, hs1, -, -, hwf1, -, -, -, -, -, -⟩ :=
            stack_pop_ok ih hq hc
          rw [Option.some.inj hs1]
          exact hwf1
        · have hfr := stack_pop_err_frame hq hc
          rw [Option.some.inj hfr.1]
          exact ih
    | opPeek ep si =>
      simp only [stackStep] at hstep
      cases hq : stack_peek (some s) ep si with
      | none => rw [hq] at hstep; cases hstep
      | some r =>
        rw [hq] at hstep
        simp only [Option.map_some', Option.some.injEq, Prod.mk.injEq] at hstep
        obtain ⟨h1, -⟩ := hstep
        rw [← h1]
        exact ih
    | opIncrRefcount =>
      simp only [stackStep, Option.some.injEq, Prod.mk.injEq] at hstep
      obtain ⟨h1, -⟩ := hstep
      unfold stack_incr_refcount at h1
      split at h1
      · rw [← Option.some.inj h1]
        exact ih
      · simp only at h1
        split at h1
        · rw [← Option.some.inj h1]
          exact ih
        · rw [← Option.some.inj h1]
          exact ⟨ih.1, ih.2⟩
    | opGetNumEntries =>
      simp only [stackStep, Option.some.injEq, Prod.mk.injEq] at hstep
      obtain ⟨h1, -⟩ := hstep
      rw [← h1]
      exact ih
    | opGetRefcount =>
      simp only [stackStep, Option.some.injEq, Prod.mk.injEq] at hstep
      obtain ⟨h1, -⟩ := hstep
      rw [← h1]
      exact ih
    | opFree =>
      simp only [stackStep, Option.some.injEq, Prod.mk.injEq] at hstep
      obtain ⟨h1, -⟩ := hstep
      unfold stack_free at h1
      simp only at h1
      split at h1
      · cases h1
      · rw [← Option.some.inj h1]
        exact ⟨ih.1, ih.2⟩

/-- C4: every state reachable from a fresh allocation by any sequence of
push/pop/peek/refcount operations satisfies the bookkeeping invariants:
used size plus free size equals the buffer capacity, and the sum over the
stored entries of (size-field width + data length) equals the used
size. -/
theorem stack_reachable_invariants (s : stack_t) (h : stackReachable s) :
    s.buf.length = STACK_BUF_SIZE ∧ s.buf_free_size ≤ s.buf.length ∧
    (s.buf.length - s.buf_free_size) + s.buf_free_size = s.buf.length ∧
    ((entriesOf s).map fun d => SIZEOF_SIZE_T + d.length).sum =
      s.buf.length - s.buf_free_size := by
  have hwf := stackReachable_wf h
  obtain ⟨hbl, hps⟩ := hwf
  obtain ⟨l, hl⟩ := Option.isSome_iff_exists.mp hps
  have hsum := parseEntries_sum hl
  have hE : entriesOf s = l := by rw [entriesOf, hl]; rfl
  rw [hE]
  exact ⟨hbl, by omega, by omega, by omega⟩

/-- Witness for stack_reachable_invariants at a freshly allocated stack. -/
theorem stack_reachable_invariants_witness :
    freshStack.buf.length = STACK_BUF_SIZE ∧
    freshStack.buf_free_size ≤ freshStack.buf.length ∧
    (freshStack.buf.length - freshStack.buf_free_size) + freshStack.buf_free_size =
      freshStack.buf.length ∧
    ((entriesOf freshStack).map fun d => SIZEOF_SIZE_T + d.length).sum =
      freshStack.buf.length - freshStack.buf_free_size :=
  stack_reachable_invariants freshStack
    (stackReachable.alloc 0 0 8 0 (List.replicate 1024 0) freshStack
      (by rw [List.length_replicate]; rfl) rfl)

/-! Forward evaluation of stack_push -/

/-- Unfolding of stack_push on a non-NULL handle. -/
theorem stack_push_some_unfold (s : stack_t) (e : Option (List Nat)) (n : Nat) :
    stack_push (some s) e n =
      if stack_is_valid (some s) = false then some (some s, STACK_E_INVALID)
      else if e.isNone ∧ 0 < n then some (some s, STACK_E_INVALID)
      else if s.buf_free_size < (SIZEOF_SIZE_T + n) % SIZE_T_MOD then
        some (some s, STACK_E_FULL)
      else
        match writeBytes s.buf (s.buf_free_size - (SIZEOF_SIZE_T + n) % SIZE_T_MOD)
            (encodeLE SIZEOF_SIZE_T n) with
        | none => none
        | some buf2 =>
          if 0 < n then
            match e with
            | none => none
            | some data =>
              if data.length < n then none
              else
                match writeBytes buf2
                    (s.buf_free_size - (SIZEOF_SIZE_T + n) % SIZE_T_MOD + SIZEOF_SIZE_T)
                    (data.take n) with
                | none => none
                | some buf3 =>
                  some (some { s with buf := buf3, num_entries := (s.num_entries + 1) % SIZE_T_MOD, buf_free_size := s.buf_free_size - (SIZEOF_SIZE_T + n) % SIZE_T_MOD }, STACK_E_OK)
          else
            some (some { s with buf := buf2, num_entries := (s.num_entries + 1) % SIZE_T_MOD, buf_free_size := s.buf_free_size - (SIZEOF_SIZE_T + n) % SIZE_T_MOD }, STACK_E_OK) := rfl

theorem stack_push_ok_of_room {s : stack_t} {e : Option (List Nat)} {n : Nat}
    (hs : s.self_ok = true) (hbl : s.buf.length = STACK_BUF_SIZE)
    (hfs : s.buf_free_size ≤ STACK_BUF_SIZE)
    (hroom : SIZEOF_SIZE_T + n ≤ s.buf_free_size)
    (hdata : n = 0 ∨ ∃ d, e = some d ∧ d.length = n) :
    ∃ s', stack_push (some s) e n = some (some s', STACK_E_OK) ∧
      s'.self_ok = s.self_ok ∧ s'.refcount = s.refcount ∧
      s'.num_entries = (s.num_entries + 1) % SIZE_T_MOD ∧
      s'.buf_free_size = s.buf_free_size - (SIZEOF_SIZE_T + n) := by
  have hn : SIZEOF_SIZE_T + n < SIZE_T_MOD := by
    simp only [SIZEOF_SIZE_T, SIZE_T_MOD, STACK_BUF_SIZE] at *
    omega
  have hr : (SIZEOF_SIZE_T + n) % SIZE_T_MOD = SIZEOF_SIZE_T + n := Nat.mod_eq_of_lt hn
  have hv : ¬ (stack_is_valid (some s) = false) := by simp [stack_is_valid, hs]
  have hnofull : ¬ (s.buf_free_size < (SIZEOF_SIZE_T + n) % SIZE_T_MOD) := by
    rw [hr]
    omega
  have hw1 : writeBytes s.buf (s.buf_free_size - (SIZEOF_SIZE_T + n) % SIZE_T_MOD)
      (encodeLE SIZEOF_SIZE_T n) =
      some (s.buf.take (s.buf_free_size - (SIZEOF_SIZE_T + n) % SIZE_T_MOD) ++
        encodeLE SIZEOF_SIZE_T n ++
        s.buf.drop ((s.buf_free_size - (SIZEOF_SIZE_T + n) % SIZE_T_MOD) +
          (encodeLE SIZEOF_SIZE_T n).length)) :=
    writeBytes_eq (by
      rw [encodeLE_length, hr, hbl]
      simp only [SIZEOF_SIZE_T, STACK_BUF_SIZE] at *
      omega)
  have hq : stack_push (some s) e n = stack_push (some s) e n := rfl
  nth_rewrite 2 [stack_push_some_unfold] at hq
  rw [if_neg hv] at hq
  cases hdata with
  | inl h0 =>
    subst h0
    rw [if_neg (show ¬ (e.isNone = true ∧ 0 < 0) by simp), if_neg hnofull, hw1] at hq
    simp only [] at hq
    exact ⟨_, hq, rfl, rfl, rfl, by
      show s.buf_free_size - (SIZEOF_SIZE_T + 0) % SIZE_T_MOD =
        s.buf_free_size - (SIZEOF_SIZE_T + 0)
      rw [hr]⟩
  | inr hd =>
    obtain ⟨d, rfl, hdl⟩ := hd
    rcases Nat.eq_zero_or_pos n with hn0 | hn0
    · subst hn0
      rw [if_neg (show ¬ ((some d).isNone = true ∧ 0 < 0) by simp), if_neg hnofull,
        hw1] at hq
      simp only [] at hq
      exact ⟨_, hq, rfl, rfl, rfl, by
        show s.buf_free_size - (SIZEOF_SIZE_T + 0) % SIZE_T_MOD =
          s.buf_free_size - (SIZEOF_SIZE_T + 0)
        rw [hr]⟩
    · have hnd : ¬ (d.length < n) := by omega
      obtain ⟨buf2, hbuf2⟩ : ∃ b, writeBytes s.buf
          (s.buf_free_size - (SIZEOF_SIZE_T + n) % SIZE_T_MOD)
          (encodeLE SIZEOF_SIZE_T n) = some b := ⟨_, hw1⟩
      have htn : (d.take n).length = n := by
        simp only [List.length_take]
        omega
      have hw2 : writeBytes buf2
          (s.buf_free_size - (SIZEOF_SIZE_T + n) % SIZE_T_MOD + SIZEOF_SIZE_T)
          (d.take n) =
          some (buf2.take (s.buf_free_size - (SIZEOF_SIZE_T + n) % SIZE_T_MOD +
              SIZEOF_SIZE_T) ++ d.take n ++
            buf2.drop (s.buf_free_size - (SIZEOF_SIZE_T + n) % SIZE_T_MOD +
              SIZEOF_SIZE_T + (d.take n).length)) :=
        writeBytes_eq (by
          rw [writeBytes_length hbuf2, hbl, htn, hr]
          simp only [SIZEOF_SIZE_T, STACK_BUF_SIZE] at *
          omega)
      rw [if_neg (show ¬ ((some d).isNone = true ∧ 0 < n) by simp), if_neg hnofull,
        hbuf2] at hq
      simp only [] at hq
      rw [if_pos hn0, if_neg hnd, hw2] at hq
      simp only [] at hq
      exact ⟨_, hq, rfl, rfl, rfl, by
        show s.buf_free_size - (SIZEOF_SIZE_T + n) % SIZE_T_MOD =
          s.buf_free_size - (SIZEOF_SIZE_T + n)
        rw [hr]⟩

set_option maxRecDepth 40000 in
/-- C3 counterexample: at L = 2^64 - 1 the size_t sum sizeof(size_t) + L
wraps around to 7, so although the required space far exceeds the free
space of a fresh stack, the FULL check passes and the push goes on to
store the size field past the end of the buffer: the call is undefined
behavior (modelled none), not the FULL return the claim requires. -/
theorem stack_push_capacity_cex :
    STACK_BUF_SIZE < SIZEOF_SIZE_T + (SIZE_T_MOD - 1) ∧
    stack_push (some freshStack) (some [0]) (SIZE_T_MOD - 1) = none := by
  constructor
  · norm_num [STACK_BUF_SIZE, SIZEOF_SIZE_T, SIZE_T_MOD]
  · rfl

/-- C3 amended: for every well-formed valid stack and every push of a
byte string of length L with sizeof(size_t) + L representable in size_t
(L ≤ 2^64 - 9): if sizeof(size_t) + L exceeds the free size the push
returns FULL with the stack unchanged (no partial write), and otherwise
the push succeeds with OK. -/
theorem stack_push_capacity (s : stack_t) (data : List Nat) (L : Nat)
    (hwf : stackWF s) (hs : s.self_ok = true) (hdl : data.length = L)
    (hL : SIZEOF_SIZE_T + L < SIZE_T_MOD) :
    (s.buf_free_size < SIZEOF_SIZE_T + L →
      stack_push (some s) (some data) L = some (some s, STACK_E_FULL)) ∧
    (SIZEOF_SIZE_T + L ≤ s.buf_free_size →
      ∃ s', stack_push (some s) (some data) L = some (some s', STACK_E_OK)) := by
  have hr : (SIZEOF_SIZE_T + L) % SIZE_T_MOD = SIZEOF_SIZE_T + L := Nat.mod_eq_of_lt hL
  have hv : ¬ (stack_is_valid (some s) = false) := by simp [stack_is_valid, hs]
  constructor
  · intro hlt
    rw [stack_push_some_unfold, if_neg hv,
      if_neg (show ¬ ((some data).isNone = true ∧ 0 < L) by simp),
      if_pos (show s.buf_free_size < (SIZEOF_SIZE_T + L) % SIZE_T_MOD by rw [hr]; exact hlt)]
  · intro hle
    obtain ⟨hbl, hps⟩ := hwf
    obtain ⟨l, hl⟩ := Option.isSome_iff_exists.mp hps
    have hsum := parseEntries_sum hl
    have hfs : s.buf_free_size ≤ STACK_BUF_SIZE := by
      rw [hbl] at hsum
      omega
    obtain ⟨s', hp, -⟩ :=
      stack_push_ok_of_room hs hbl hfs hle (Or.inr ⟨data, rfl, hdl⟩)
    exact ⟨s', hp⟩

/-- Witness for stack_push_capacity: a 1-byte push on a fresh stack. -/
theorem stack_push_capacity_witness :
    (freshStack.buf_free_size < SIZEOF_SIZE_T + 1 →
      stack_push (some freshStack) (some [7]) 1 = some (some freshStack, STACK_E_FULL)) ∧
    (SIZEOF_SIZE_T + 1 ≤ freshStack.buf_free_size →
      ∃ s', stack_push (some freshStack) (some [7]) 1 = some (some s', STACK_E_OK)) :=
  stack_push_capacity freshStack [7] 1 freshStack_wf rfl rfl
    (by norm_num [SIZEOF_SIZE_T, SIZE_T_MOD])

set_option maxRecDepth 40000 in
/-- C5 counterexample: pushing with length 0 on a fresh valid stack does
not return INVALID with the state unchanged: it returns OK, increments
num_entries to 1 and decreases buf_free_size to 1016. -/
theorem stack_push_zero_len_cex :
    (stack_push (some freshStack) (some []) 0).map
        (fun p => (p.1.map stack_t.num_entries, p.1.map stack_t.buf_free_size, p.2)) =
      some (some 1, some 1016, STACK_E_OK) ∧
    freshStack.num_entries = 0 ∧ freshStack.buf_free_size = 1024 :=
  ⟨rfl, rfl, rfl⟩

/-- C5 amended: on every valid stack with a 1024-byte buffer and at least
sizeof(size_t) bytes free, a push request of length 0 (with any entry
pointer, NULL included) returns OK and pushes a zero-length entry:
num_entries is incremented and free size shrinks by sizeof(size_t); only
the interface comment forbids zero-length entries, the code accepts
them. -/
theorem stack_push_zero_len (s : stack_t) (e : Option (List Nat))
    (hs : s.self_ok = true) (hbl : s.buf.length = STACK_BUF_SIZE)
    (hfs : s.buf_free_size ≤ STACK_BUF_SIZE)
    (h8 : SIZEOF_SIZE_T ≤ s.buf_free_size) :
    ∃ s', stack_push (some s) e 0 = some (some s', STACK_E_OK) ∧
      s'.num_entries = (s.num_entries + 1) % SIZE_T_MOD ∧
      s'.buf_free_size = s.buf_free_size - SIZEOF_SIZE_T ∧
      s'.refcount = s.refcount ∧ s'.self_ok = true := by
  obtain ⟨s', hp, hso, hrc, hnum, hfs'⟩ :=
    stack_push_ok_of_room hs hbl hfs h8 (Or.inl rfl)
  exact ⟨s', hp, hnum, hfs', hrc, by rw [hso, hs]⟩

/-- Witness for stack_push_zero_len on a fresh stack. -/
theorem stack_push_zero_len_witness :
    ∃ s', stack_push (some freshStack) none 0 = some (some s', STACK_E_OK) ∧
      s'.num_entries = (freshStack.num_entries + 1) % SIZE_T_MOD ∧
      s'.buf_free_size = freshStack.buf_free_size - SIZEOF_SIZE_T ∧
      s'.refcount = freshStack.refcount ∧ s'.self_ok = true :=
  stack_push_zero_len freshStack none rfl
    (by show (List.replicate 1024 0).length = STACK_BUF_SIZE
        rw [List.length_replicate]
        rfl)
    (Nat.le_refl 1024) (by decide)

/-- A non-NULL handle whose self-pointer sentinel does not match. -/
def invalidStack : stack_t :=
  { self_ok := false, buf := List.replicate 1024 0, buf_free_size := 1024,
    num_entries := 0, refcount := 5 }

/-- C6 (code bug): stack_free checks only for NULL, never the validity
sentinel, so on a non-NULL handle that fails stack_is_valid it still
decrements the reference count (5 becomes 4 here), contradicting the
stack.h documentation of stack_free (invalid stacks: nothing will
happen) and the claim that every operation rejects an invalid handle
without mutating it.  The other handle-taking operations do reject this
handle with INVALID or 0 and leave it unchanged. -/
theorem stack_free_invalid_handle_mutates :
    stack_is_valid (some invalidStack) = false ∧
    stack_free (some invalidStack) = some { invalidStack with refcount := 4 } ∧
    stack_push (some invalidStack) (some [1]) 1 =
      some (some invalidStack, STACK_E_INVALID) ∧
    stack_peek (some invalidStack) true (some 8) =
      some ⟨STACK_E_INVALID, none, none⟩ ∧
    stack_pop (some invalidStack) true (some 8) =
      some (some invalidStack, ⟨STACK_E_INVALID, none, none⟩) ∧
    stack_get_num_entries (some invalidStack) = 0 ∧
    stack_get_refcount (some invalidStack) = 0 ∧
    stack_incr_refcount (some invalidStack) = (some invalidStack, STACK_E_INVALID) :=
  ⟨rfl, rfl, rfl, rfl, rfl, rfl, rfl, rfl⟩

/-- C7: a successful allocation returns a stack with the validity
sentinel set, no entries (the buffer is logically empty), the full
capacity free, and a reference count of 1, and a failed allocation
returns NULL, never a partially initialized handle. -/
theorem stack_alloc_custom_spec (me mes des ms : Nat) (mem : List Nat)
    (hlen : mem.length = STACK_BUF_SIZE) :
    (∃ s, stack_alloc_custom me mes des ms (some mem) = some s ∧
      stack_is_valid (some s) = true ∧ s.num_entries = 0 ∧ s.refcount = 1 ∧
      s.buf_free_size = STACK_BUF_SIZE ∧ s.buf.length = STACK_BUF_SIZE ∧
      entriesOf s = [] ∧ stackWF s) ∧
    stack_alloc_custom me mes des ms none = none := by
  refine ⟨⟨_, rfl, rfl, rfl, rfl, rfl, hlen, ?_, hlen, ?_⟩, rfl⟩
  · rw [entriesOf, parseEntries_zero]
    simp [hlen]
  · rw [parseEntries_zero]
    simp [hlen]

/-- Witness for stack_alloc_custom_spec with the default parameters of
stack_alloc and a 1024-byte allocation. -/
theorem stack_alloc_custom_spec_witness :
    (∃ s, stack_alloc_custom STACK_MAX_ENTRIES_NONE STACK_MAX_ENTRY_SIZE_NONE
        STACK_DEFAULT_ENTRY_SIZE STACK_MAX_SIZE_NONE
        (some (List.replicate 1024 0)) = some s ∧
      stack_is_valid (some s) = true ∧ s.num_entries = 0 ∧ s.refcount = 1 ∧
      s.buf_free_size = STACK_BUF_SIZE ∧ s.buf.length = STACK_BUF_SIZE ∧
      entriesOf s = [] ∧ stackWF s) ∧
    stack_alloc_custom STACK_MAX_ENTRIES_NONE STACK_MAX_ENTRY_SIZE_NONE
      STACK_DEFAULT_ENTRY_SIZE STACK_MAX_SIZE_NONE none = none :=
  stack_alloc_custom_spec STACK_MAX_ENTRIES_NONE STACK_MAX_ENTRY_SIZE_NONE
    STACK_DEFAULT_ENTRY_SIZE STACK_MAX_SIZE_NONE (List.replicate 1024 0)
    (by rw [List.length_replicate]; rfl)

/-- C8: on a valid stack, stack_incr_refcount increments the reference
count by exactly one and returns OK, unless the count is already at the
representable maximum ((unsigned int)(-1)), in which case the count is
left unchanged and MAX_REFCOUNT is returned; no other field is modified
in either case. -/
theorem stack_incr_refcount_spec (s : stack_t) (hs : s.self_ok = true) :
    (STACK_MAX_REFCOUNT ≤ s.refcount →
      stack_incr_refcount (some s) = (some s, STACK_E_MAX_REFCOUNT)) ∧
    (s.refcount < STACK_MAX_REFCOUNT →
      stack_incr_refcount (some s) =
        (some { s with refcount := s.refcount + 1 }, STACK_E_OK)) := by
  have hv : ¬ (stack_is_valid (some s) = false) := by simp [stack_is_valid, hs]
  constructor
  · intro hmax
    simp [stack_incr_refcount, stack_is_valid, hs, hmax]
  · intro hlt
    have hnmax : ¬ (STACK_MAX_REFCOUNT ≤ s.refcount) := by omega
    simp [stack_incr_refcount, stack_is_valid, hs, hnmax]

/-- Witness for stack_incr_refcount_spec on a fresh stack with refcount
1. -/
theorem stack_incr_refcount_spec_witness :
    freshStack.refcount < STACK_MAX_REFCOUNT ∧
    stack_incr_refcount (some freshStack) =
      (some { freshStack with refcount := freshStack.refcount + 1 }, STACK_E_OK) :=
  ⟨by decide, (stack_incr_refcount_spec freshStack rfl).2 (by decide)⟩
